import Mathlib

/-!
Verification of the repository-hygiene checks: the shared directory walker,
the sensitive-file detector, the size-limit enforcer, the whitespace/newline
normalizer, and the frontmatter/consistency validators.

File contents are modelled as `List Char`; file sizes as `Nat`; the file
tree seen by the walker as a mutual inductive of entries and entry lists.
-/

namespace Hygiene

/-! ## Whitespace/newline normalizer (fix script) -/

/-- The character set removed by JavaScript `trimRight`/`trim`
(ECMAScript WhiteSpace together with LineTerminator). -/
def jsWhitespace : List Char :=
  [' ', '\t', '\n', '\r', '\x0b', '\x0c', ' ', '﻿',
   ' ', ' ', ' ', ' ', ' ', ' ', ' ',
   ' ', ' ', ' ', ' ', ' ',
   ' ', ' ', ' ', ' ', '　']

/-- Whether a character counts as whitespace for JavaScript trimming. -/
def isJSWs (c : Char) : Bool := jsWhitespace.contains c

/-- JavaScript `line.trimRight()`: drop trailing whitespace characters. -/
def trimRight (l : List Char) : List Char := l.rdropWhile isJSWs

/-- The per-file transform of the fixer callback: split on the newline,
right-trim every line, rejoin with `'\n'`, then append a final newline when
the result is nonempty and does not already end with one.  Returns the output
content together with the `modified` flag (the file is rewritten iff the flag
is true). -/
def normalizeFix (content : List Char) : List Char × Bool :=
  let lines := content.splitOn '\n'
  let fixedLines := lines.map trimRight
  let output := List.intercalate ['\n'] fixedLines
  if 0 < output.length ∧ ¬ output.getLast? = some '\n' then
    (output ++ ['\n'], true)
  else
    (output, decide (fixedLines ≠ lines))

/-- Whether a carriage return immediately followed by a line feed occurs
anywhere in the content. -/
def hasCRLF : List Char → Bool
  | [] => false
  | [_] => false
  | a :: b :: rest => (a == '\r' && b == '\n') || hasCRLF (b :: rest)

/-! ## Lemmas about splitting, joining and trimming -/

theorem splitOnP_sep_false {α : Type} (p : α → Bool) (xs : List α) :
    ∀ l ∈ xs.splitOnP p, ∀ a ∈ l, p a = false := by
  induction xs with
  | nil =>
    intro l hl a ha
    simp only [List.splitOnP_nil, List.mem_singleton] at hl
    subst hl
    simp at ha
  | cons y ys ih =>
    intro l hl a ha
    rw [List.splitOnP_cons] at hl
    by_cases hy : p y = true
    · rw [if_pos hy] at hl
      rcases List.mem_cons.mp hl with rfl | hl
      · simp at ha
      · exact ih l hl a ha
    · rw [if_neg hy] at hl
      obtain ⟨h, t, hht⟩ : ∃ h t, ys.splitOnP p = h :: t := by
        cases hsp : ys.splitOnP p with
        | nil => exact absurd hsp (List.splitOnP_ne_nil p ys)
        | cons h t => exact ⟨h, t, rfl⟩
      rw [hht] at hl
      simp only [List.modifyHead] at hl
      rcases List.mem_cons.mp hl with rfl | hl
      · rcases List.mem_cons.mp ha with rfl | ha2
        · simpa using hy
        · exact ih h (hht ▸ List.mem_cons_self h t) a ha2
      · exact ih l (by rw [hht]; exact List.mem_cons_of_mem _ hl) a ha

theorem splitOn_nl_ne_nil (c : List Char) : c.splitOn '\n' ≠ [] :=
  List.splitOnP_ne_nil _ _

theorem nl_not_mem_splitOn (c : List Char) : ∀ l ∈ c.splitOn '\n', '\n' ∉ l := by
  intro l hl hmem
  have h := splitOnP_sep_false (fun a => a == '\n') c l hl '\n' hmem
  simp at h

theorem trimRight_idem (l : List Char) : trimRight (trimRight l) = trimRight l :=
  List.rdropWhile_idempotent _ _

theorem nl_not_mem_trimRight {l : List Char} (h : '\n' ∉ l) : '\n' ∉ trimRight l :=
  fun hm => h (List.IsPrefix.subset (List.rdropWhile_prefix _ _) hm)

theorem trimRight_getLast_ne_cr (l : List Char) : (trimRight l).getLast? ≠ some '\r' := by
  simp only [trimRight]
  intro hc
  have hne : List.rdropWhile isJSWs l ≠ [] := by
    intro h0
    rw [h0] at hc
    simp at hc
  rw [List.getLast?_eq_getLast_of_ne_nil hne] at hc
  have hlast := List.rdropWhile_last_not isJSWs l hne
  rw [Option.some.inj hc] at hlast
  exact hlast (by decide)

theorem intercalate_two (a b : List Char) (t : List (List Char)) :
    List.intercalate ['\n'] (a :: b :: t) =
      a ++ '\n' :: List.intercalate ['\n'] (b :: t) := by
  simp [List.intercalate]

theorem intercalate_concat_empty (ls : List (List Char)) (h : ls ≠ []) :
    List.intercalate ['\n'] (ls ++ [[]]) = List.intercalate ['\n'] ls ++ ['\n'] := by
  induction ls with
  | nil => cases h rfl
  | cons a t ih =>
    cases t with
    | nil => simp [List.intercalate]
    | cons b u =>
      have ih2 := ih (by simp)
      have e1 : (a :: b :: u) ++ [[]] = a :: b :: (u ++ [[]]) := by simp
      rw [e1, intercalate_two, intercalate_two a b u]
      have e2 : (b :: (u ++ [[]]) : List (List Char)) = (b :: u) ++ [[]] := by simp
      rw [e2, ih2]
      simp

/-- The right-trimmed lines of any content, as computed by the fixer. -/
def fixedOf (c : List Char) : List (List Char) := (c.splitOn '\n').map trimRight

theorem fixedOf_ne_nil (c : List Char) : fixedOf c ≠ [] := by
  intro h0
  exact splitOn_nl_ne_nil c (List.map_eq_nil_iff.mp h0)

theorem fixedOf_nl_not_mem (c : List Char) : ∀ l ∈ fixedOf c, '\n' ∉ l := by
  intro l hl
  rcases List.mem_map.mp hl with ⟨l0, hl0, rfl⟩
  exact nl_not_mem_trimRight (nl_not_mem_splitOn c l0 hl0)

theorem fixedOf_getLast_ne_cr (c : List Char) : ∀ l ∈ fixedOf c, l.getLast? ≠ some '\r' := by
  intro l hl
  rcases List.mem_map.mp hl with ⟨l0, _, rfl⟩
  exact trimRight_getLast_ne_cr l0

theorem fixedOf_trim_fixed (c : List Char) : (fixedOf c).map trimRight = fixedOf c := by
  rw [fixedOf, List.map_map]
  exact List.map_congr_left fun a _ => trimRight_idem a

/-! ## Size-limit enforcer -/

def SIZE_LIMITS_default : Nat := 1024 * 1024

def SIZE_LIMITS_images : Nat := 500 * 1024

def SIZE_LIMITS_videos : Nat := 0

def IMAGE_EXTS : List String := [".png", ".jpg", ".jpeg", ".gif", ".svg", ".webp"]

def VIDEO_EXTS : List String := [".mp4", ".mov", ".avi", ".mkv", ".webm"]

/-- Outcome of the size-check callback for one file. -/
inductive SizeVerdict where
  | videoNotAllowed
  | oversize
  | ok
deriving DecidableEq

/-- The size-check callback: `ext` is the lowercased extension of the file,
`size` its byte size.  Videos are rejected outright; otherwise the limit is
chosen by extension category and strictly-greater sizes are violations. -/
def sizeCheck (ext : String) (size : Nat) : SizeVerdict :=
  if VIDEO_EXTS.contains ext then .videoNotAllowed
  else
    let limit := if IMAGE_EXTS.contains ext then SIZE_LIMITS_images else SIZE_LIMITS_default
    if size > limit then .oversize else .ok

/-- Number of errors the size check records for one file. -/
def sizeErrDelta (v : SizeVerdict) : Nat :=
  match v with
  | .videoNotAllowed => 1
  | .oversize => 1
  | .ok => 0

/-! ## Claims about the size-limit enforcer -/

/-- C2: for a non-video file, the size check reports a violation iff the byte
size is strictly greater than the limit of the extension category
(500 KiB for image extensions, 1 MiB otherwise); equality with the limit is
not a violation. -/
theorem sizeCheck_nonvideo_oversize_iff (ext : String) (size : Nat)
    (h : VIDEO_EXTS.contains ext = false) :
    sizeCheck ext size = .oversize ↔
      size > (if IMAGE_EXTS.contains ext then 500 * 1024 else 1024 * 1024) := by
  unfold sizeCheck
  rw [h]
  simp only [Bool.false_eq_true, if_false]
  dsimp only [SIZE_LIMITS_images, SIZE_LIMITS_default]
  by_cases hs : size > (if IMAGE_EXTS.contains ext = true then 500 * 1024 else 1024 * 1024)
  · simp [hs]
  · simp [hs]

/-- Witness for C2 at the image boundary: a `.png` of exactly 500 KiB. -/
theorem sizeCheck_nonvideo_oversize_iff_witness :
    VIDEO_EXTS.contains ".png" = false ∧
      (sizeCheck ".png" 512000 = .oversize ↔
        512000 > (if IMAGE_EXTS.contains ".png" then 500 * 1024 else 1024 * 1024)) :=
  ⟨by decide, sizeCheck_nonvideo_oversize_iff ".png" 512000 (by decide)⟩

/-- C3: a file with a video extension is reported as a violation regardless of
its byte size. -/
theorem sizeCheck_video_always (ext : String) (size : Nat)
    (h : VIDEO_EXTS.contains ext = true) :
    sizeCheck ext size = .videoNotAllowed := by
  unfold sizeCheck
  rw [h]
  simp

/-- Witness for C3: a one-byte `.mp4` is still a violation. -/
theorem sizeCheck_video_always_witness :
    VIDEO_EXTS.contains ".mp4" = true ∧ sizeCheck ".mp4" 1 = .videoNotAllowed :=
  ⟨by decide, sizeCheck_video_always ".mp4" 1 (by decide)⟩

/-! ## The shared directory walker -/

mutual

/-- A file-tree entry: a plain file or a directory with children, each
carrying its base name. -/
inductive Entry where
  | file (name : String)
  | dir (name : String) (children : EntryList)

/-- A directory listing. -/
inductive EntryList where
  | nil
  | cons (e : Entry) (es : EntryList)

end

mutual

/-- How `walkDir` treats one directory entry: files are passed to the
callback (collected here as the path of components from the root); a
directory whose base name is in the exclusion set is skipped entirely,
otherwise it is recursed into. -/
def visitEntry (excl : List String) (path : List String) : Entry → List (List String)
  | .file n => [path ++ [n]]
  | .dir n cs => if excl.contains n then [] else visitList excl (path ++ [n]) cs

/-- How `walkDir` iterates over a directory listing. -/
def visitList (excl : List String) (path : List String) : EntryList → List (List String)
  | .nil => []
  | .cons e es => visitEntry excl path e ++ visitList excl path es

end

/-- A whole walk from the root: the root directory itself is never checked
against the exclusion set, only the names of directories below it. -/
def walkDir (excl : List String) (rootChildren : EntryList) : List (List String) :=
  visitList excl [] rootChildren

def EXCLUDED_DIRS_sensitive : List String := ["node_modules", ".git", "dist", "build", ".next"]

def EXCLUDED_DIRS_size : List String :=
  ["node_modules", ".git", "dist", "build", ".next", ".cache"]

def EXCLUDED_DIRS_fix : List String := ["node_modules", ".git", "dist", "build", ".next"]

mutual

/-- Pruning invariant for a single entry: if no component of the path so far
is excluded, then no visited file path contains an excluded directory
component. -/
theorem visitEntry_prune (excl path : List String) (hp : ∀ d ∈ path, d ∉ excl) :
    ∀ (e : Entry), ∀ p ∈ visitEntry excl path e, ∀ d ∈ p.dropLast, d ∉ excl
  | .file n, p, hmem, d, hd => by
    simp only [visitEntry, List.mem_singleton] at hmem
    subst hmem
    rw [List.dropLast_concat] at hd
    exact hp d hd
  | .dir n cs, p, hmem, d, hd => by
    rw [visitEntry] at hmem
    by_cases hn : excl.contains n = true
    · rw [if_pos hn] at hmem
      simp at hmem
    · rw [if_neg hn] at hmem
      have hn2 : n ∉ excl := by simpa using hn
      have hp2 : ∀ x ∈ path ++ [n], x ∉ excl := by
        intro x hx
        rcases List.mem_append.mp hx with h | h
        · exact hp x h
        · rw [List.mem_singleton] at h
          subst h
          exact hn2
      exact visitList_prune excl (path ++ [n]) hp2 cs p hmem d hd

/-- Pruning invariant for a directory listing. -/
theorem visitList_prune (excl path : List String) (hp : ∀ d ∈ path, d ∉ excl) :
    ∀ (es : EntryList), ∀ p ∈ visitList excl path es, ∀ d ∈ p.dropLast, d ∉ excl
  | .nil, p, hmem, d, hd => by simp [visitList] at hmem
  | .cons e es, p, hmem, d, hd => by
    simp only [visitList] at hmem
    rcases List.mem_append.mp hmem with h | h
    · exact visitEntry_prune excl path hp e p h d hd
    · exact visitList_prune excl path hp es p h d hd

end

/-- C1: for every file tree and every exclusion set, a visited file path never
has an excluded directory name among its directory components, and the
entire subtree of an excluded directory contributes no visits at all. -/
theorem walkDir_never_visits_excluded :
    (∀ (excl : List String) (root : EntryList) (p : List String),
        p ∈ walkDir excl root → ∀ d ∈ p.dropLast, d ∉ excl) ∧
      (∀ (excl path : List String) (n : String) (cs : EntryList),
        excl.contains n = true → visitEntry excl path (Entry.dir n cs) = []) := by
  constructor
  · intro excl root p hp
    exact visitList_prune excl [] (by simp) root p hp
  · intro excl path n cs hn
    rw [visitEntry, if_pos hn]

/-- Witness for C1 on the example tree from the spec: `node_modules/deep/.env` is
pruned while a sibling file is visited with no excluded component. -/
theorem walkDir_never_visits_excluded_witness :
    (∀ d ∈ (["a.txt"] : List String).dropLast, d ∉ EXCLUDED_DIRS_sensitive) ∧
      visitEntry EXCLUDED_DIRS_sensitive []
        (Entry.dir "node_modules"
          (EntryList.cons (Entry.dir "deep" (EntryList.cons (Entry.file ".env") EntryList.nil))
            EntryList.nil)) = [] :=
  ⟨walkDir_never_visits_excluded.1 EXCLUDED_DIRS_sensitive
      (EntryList.cons
        (Entry.dir "node_modules"
          (EntryList.cons (Entry.dir "deep" (EntryList.cons (Entry.file ".env") EntryList.nil))
            EntryList.nil))
        (EntryList.cons (Entry.file "a.txt") EntryList.nil))
      ["a.txt"] (by decide),
    walkDir_never_visits_excluded.2 EXCLUDED_DIRS_sensitive [] "node_modules"
      (EntryList.cons (Entry.dir "deep" (EntryList.cons (Entry.file ".env") EntryList.nil))
        EntryList.nil)
      (by decide)⟩

/-! ## Consistency validator: global duplicate-name detection -/

/-- The `allNames` fold of the consistency validator, restricted to the files
that reach the duplicate check: for each declared `name` in scan order, record
whether it was already in the set (`true` = reported as a duplicate), adding
unseen names to the set. -/
def dupFlagsAux (seen : List String) : List String → List Bool
  | [] => []
  | n :: rest =>
    seen.contains n :: dupFlagsAux (if seen.contains n then seen else n :: seen) rest

/-- Duplicate flags for a whole run, starting from the empty `allNames` set.
The input list is the concatenation, in scan order, of the declared names from
all three metadata directories, so the uniqueness set is global to the run. -/
def dupFlags (names : List String) : List Bool := dupFlagsAux [] names

theorem dupFlagsAux_getElem (seen names : List String) (i : Nat) (hi : i < names.length) :
    (dupFlagsAux seen names)[i]? =
      some (decide (names[i] ∈ seen ∨ names[i] ∈ names.take i)) := by
  induction names generalizing seen i with
  | nil => simp at hi
  | cons n rest ih =>
    cases i with
    | zero =>
      simp only [dupFlagsAux, List.getElem?_cons_zero, List.getElem_cons_zero, List.take_zero,
        List.not_mem_nil, or_false]
      congr 1
      simp
    | succ j =>
      have hj : j < rest.length := by simpa using hi
      rw [dupFlagsAux]
      simp only [List.getElem?_cons_succ, List.getElem_cons_succ, List.take_succ_cons]
      by_cases hc : seen.contains n = true
      · rw [if_pos hc, ih _ j hj]
        have hn : n ∈ seen := by simpa using hc
        congr 1
        rw [decide_eq_decide]
        simp only [List.mem_cons]
        constructor
        · rintro (h | h)
          · exact Or.inl h
          · exact Or.inr (Or.inr h)
        · rintro (h | h | h)
          · exact Or.inl h
          · exact Or.inl (h ▸ hn)
          · exact Or.inr h
      · rw [if_neg hc, ih _ j hj]
        have hn : n ∉ seen := by simpa using hc
        congr 1
        rw [decide_eq_decide]
        simp only [List.mem_cons]
        tauto

/-- C4: across one whole run, the duplicate flag of the i-th declared name is
set exactly when the same name already occurred earlier in the run, so the
first occurrence of a name is never reported and every later occurrence is. -/
theorem dupFlags_getElem (names : List String) (i : Nat) (hi : i < names.length) :
    (dupFlags names)[i]? = some (decide (names[i] ∈ names.take i)) := by
  have h := dupFlagsAux_getElem [] names i hi
  simpa [dupFlags] using h

/-- Witness for C4: `["shared", "other", "shared"]` — the third entry is a
duplicate, the first is not. -/
theorem dupFlags_getElem_witness :
    (dupFlags ["shared", "other", "shared"])[2]? =
        some (decide ((["shared", "other", "shared"] : List String)[2] ∈
          (["shared", "other", "shared"] : List String).take 2)) ∧
      (dupFlags ["shared", "other", "shared"])[0]? =
        some (decide ((["shared", "other", "shared"] : List String)[0] ∈
          (["shared", "other", "shared"] : List String).take 0)) :=
  ⟨dupFlags_getElem ["shared", "other", "shared"] 2 (by decide),
    dupFlags_getElem ["shared", "other", "shared"] 0 (by decide)⟩

/-! ## Claims about the whitespace/newline normalizer -/

theorem normalizeFix_eq (c : List Char) :
    normalizeFix c =
      if 0 < (List.intercalate ['\n'] (fixedOf c)).length ∧
          ¬ (List.intercalate ['\n'] (fixedOf c)).getLast? = some '\n' then
        (List.intercalate ['\n'] (fixedOf c) ++ ['\n'], true)
      else
        (List.intercalate ['\n'] (fixedOf c), decide (fixedOf c ≠ c.splitOn '\n')) := rfl

theorem normalizeFix_second (c : List Char) :
    normalizeFix ((normalizeFix c).1) = ((normalizeFix c).1, false) := by
  rw [normalizeFix_eq c]
  by_cases h1 : 0 < (List.intercalate ['\n'] (fixedOf c)).length ∧
      ¬ (List.intercalate ['\n'] (fixedOf c)).getLast? = some '\n'
  · rw [if_pos h1]
    show normalizeFix (List.intercalate ['\n'] (fixedOf c) ++ ['\n']) =
      (List.intercalate ['\n'] (fixedOf c) ++ ['\n'], false)
    have e1 : List.intercalate ['\n'] (fixedOf c) ++ ['\n'] =
        List.intercalate ['\n'] (fixedOf c ++ [[]]) :=
      (intercalate_concat_empty (fixedOf c) (fixedOf_ne_nil c)).symm
    have hsplit : (List.intercalate ['\n'] (fixedOf c) ++ ['\n']).splitOn '\n' =
        fixedOf c ++ [[]] := by
      rw [e1]
      refine List.splitOn_intercalate _ '\n' ?_ ?_
      · intro l hl
        rcases List.mem_append.mp hl with h | h
        · exact fixedOf_nl_not_mem c l h
        · rw [List.mem_singleton] at h
          subst h
          simp
      · simp
    have hfixed : fixedOf (List.intercalate ['\n'] (fixedOf c) ++ ['\n']) =
        fixedOf c ++ [[]] := by
      rw [fixedOf, hsplit, List.map_append, fixedOf_trim_fixed]
      simp [trimRight]
    rw [normalizeFix_eq, hfixed, hsplit, ← e1]
    rw [if_neg (fun hh => hh.2 (List.getLast?_concat _))]
    simp
  · rw [if_neg h1]
    show normalizeFix (List.intercalate ['\n'] (fixedOf c)) =
      (List.intercalate ['\n'] (fixedOf c), false)
    push_neg at h1
    rcases Nat.eq_zero_or_pos (List.intercalate ['\n'] (fixedOf c)).length with hz | hpos
    · have hnil : List.intercalate ['\n'] (fixedOf c) = [] := List.length_eq_zero.mp hz
      rw [hnil]
      decide
    · have hlast : (List.intercalate ['\n'] (fixedOf c)).getLast? = some '\n' := h1 hpos
      have hsplit : (List.intercalate ['\n'] (fixedOf c)).splitOn '\n' = fixedOf c :=
        List.splitOn_intercalate _ '\n' (fixedOf_nl_not_mem c) (fixedOf_ne_nil c)
      have hfixed : fixedOf (List.intercalate ['\n'] (fixedOf c)) = fixedOf c := by
        rw [fixedOf, hsplit]
        exact fixedOf_trim_fixed c
      rw [normalizeFix_eq, hfixed, hsplit]
      rw [if_neg (fun hh => hh.2 hlast)]
      simp

/-- C5: the normalizer is idempotent — running it on its own output modifies
nothing and returns the same content — and a file whose lines carry no
trailing whitespace and which ends with a trailing newline is never
rewritten. -/
theorem normalizer_idempotent :
    (∀ c : List Char, normalizeFix ((normalizeFix c).1) = ((normalizeFix c).1, false)) ∧
      (∀ c : List Char, (∀ l ∈ c.splitOn '\n', trimRight l = l) →
        c.getLast? = some '\n' → normalizeFix c = (c, false)) := by
  constructor
  · exact normalizeFix_second
  · intro c hl hlast
    have hmap : (c.splitOn '\n').map trimRight = c.splitOn '\n' :=
      (List.map_congr_left fun a ha => hl a ha).trans (List.map_id _)
    have hjoin : List.intercalate ['\n'] (c.splitOn '\n') = c := List.intercalate_splitOn c '\n'
    rw [normalizeFix_eq, fixedOf, hmap, hjoin]
    rw [if_neg (fun hh => hh.2 hlast)]
    simp

/-- Witness for C5: a trimmed file `"ok\n"` is untouched, and the output for
`"a "` (which gets fixed) is a fixed point. -/
theorem normalizer_idempotent_witness :
    normalizeFix ((normalizeFix ['a', ' ']).1) = ((normalizeFix ['a', ' ']).1, false) ∧
      ((∀ l ∈ (['o', 'k', '\n'] : List Char).splitOn '\n', trimRight l = l) ∧
        normalizeFix ['o', 'k', '\n'] = (['o', 'k', '\n'], false)) :=
  ⟨normalizer_idempotent.1 ['a', ' '],
    ⟨by decide, normalizer_idempotent.2 ['o', 'k', '\n'] (by decide) (by decide)⟩⟩

/-- C6 counterexample: the nonempty file `"a\n\n"` is left unchanged, so its
output ends with two trailing newlines, not exactly one — the code only
guarantees at least one. -/
theorem normalizeFix_preserves_double_newline :
    (normalizeFix ['a', '\n', '\n']).1 = ['a', '\n', '\n'] ∧
      ((normalizeFix ['a', '\n', '\n']).1).getLast? = some '\n' ∧
      ((normalizeFix ['a', '\n', '\n']).1).dropLast.getLast? = some '\n' := by decide

/-- C6 amended: for every file, the output of the normalizer is either empty or
ends with at least one trailing newline (pre-existing extra trailing newlines
are preserved, so "exactly one" does not hold). -/
theorem normalizeFix_ends_with_newline (c : List Char) :
    (normalizeFix c).1 = [] ∨ ((normalizeFix c).1).getLast? = some '\n' := by
  rw [normalizeFix_eq]
  by_cases h : 0 < (List.intercalate ['\n'] (fixedOf c)).length ∧
      ¬ (List.intercalate ['\n'] (fixedOf c)).getLast? = some '\n'
  · rw [if_pos h]
    exact Or.inr (List.getLast?_concat _)
  · rw [if_neg h]
    push_neg at h
    rcases Nat.eq_zero_or_pos (List.intercalate ['\n'] (fixedOf c)).length with hz | hpos
    · exact Or.inl (List.length_eq_zero.mp hz)
    · exact Or.inr (h hpos)

theorem hasCRLF_nl_cons (z : List Char) : hasCRLF ('\n' :: z) = hasCRLF z := by
  cases z with
  | nil => rfl
  | cons b r =>
    simp only [hasCRLF]
    rw [show (('\n' : Char) == '\r') = false by decide]
    simp

theorem nl_not_mem_hasCRLF : ∀ (l : List Char), '\n' ∉ l → hasCRLF l = false
  | [], _ => rfl
  | [_], _ => rfl
  | a :: b :: r, h => by
    have hb : (b == '\n') = false :=
      beq_eq_false_iff_ne.mpr fun he => h (by simp [he])
    have hr : '\n' ∉ b :: r := fun hm => h (List.mem_cons_of_mem a hm)
    simp only [hasCRLF]
    rw [nl_not_mem_hasCRLF (b :: r) hr]
    simp [hb]

theorem hasCRLF_append_nl : ∀ (l z : List Char), '\n' ∉ l → l.getLast? ≠ some '\r' →
    hasCRLF z = false → hasCRLF (l ++ '\n' :: z) = false
  | [], z, _, _, hz => by
    rw [List.nil_append, hasCRLF_nl_cons]
    exact hz
  | [a], z, hnl, hcr, hz => by
    have ha : (a == '\r') = false :=
      beq_eq_false_iff_ne.mpr fun he => hcr (by simp [he])
    show hasCRLF (a :: '\n' :: z) = false
    simp only [hasCRLF]
    rw [hasCRLF_nl_cons, hz]
    simp [ha]
  | a :: b :: r, z, hnl, hcr, hz => by
    have hb : (b == '\n') = false :=
      beq_eq_false_iff_ne.mpr fun he => hnl (by simp [he])
    have hnl2 : '\n' ∉ b :: r := fun hm => hnl (List.mem_cons_of_mem a hm)
    have hcr2 : (b :: r).getLast? ≠ some '\r' := by
      rwa [List.getLast?_cons_cons] at hcr
    have ih2 : hasCRLF (b :: (r ++ '\n' :: z)) = false :=
      hasCRLF_append_nl (b :: r) z hnl2 hcr2 hz
    show hasCRLF (a :: b :: (r ++ '\n' :: z)) = false
    simp only [hasCRLF]
    rw [ih2]
    simp [hb]

theorem hasCRLF_intercalate : ∀ (ls : List (List Char)),
    (∀ l ∈ ls, '\n' ∉ l ∧ l.getLast? ≠ some '\r') →
    hasCRLF (List.intercalate ['\n'] ls) = false
  | [], _ => by simp [List.intercalate, hasCRLF]
  | [l], h => by
    have e : List.intercalate ['\n'] [l] = l := by simp [List.intercalate]
    rw [e]
    exact nl_not_mem_hasCRLF l (h l (by simp)).1
  | a :: b :: t, h => by
    have ha := h a (by simp)
    rw [intercalate_two]
    exact hasCRLF_append_nl a _ ha.1 ha.2
      (hasCRLF_intercalate (b :: t) fun l hl => h l (List.mem_cons_of_mem a hl))

/-- C10: right-trimming a line removes a trailing carriage return (so a CRLF
line ending loses its `\r`), and consequently the output of the normalizer never
contains a carriage return immediately followed by a line feed. -/
theorem normalizeFix_no_crlf :
    (∀ l : List Char, trimRight (l ++ ['\r']) = trimRight l) ∧
      (∀ c : List Char, hasCRLF (normalizeFix c).1 = false) := by
  constructor
  · intro l
    simp only [trimRight]
    exact List.rdropWhile_concat_pos _ _ _ (by decide)
  · intro c
    rw [normalizeFix_eq]
    by_cases h : 0 < (List.intercalate ['\n'] (fixedOf c)).length ∧
        ¬ (List.intercalate ['\n'] (fixedOf c)).getLast? = some '\n'
    · rw [if_pos h]
      show hasCRLF (List.intercalate ['\n'] (fixedOf c) ++ ['\n']) = false
      rw [← intercalate_concat_empty (fixedOf c) (fixedOf_ne_nil c)]
      refine hasCRLF_intercalate _ ?_
      intro l hl
      rcases List.mem_append.mp hl with h2 | h2
      · exact ⟨fixedOf_nl_not_mem c l h2, fixedOf_getLast_ne_cr c l h2⟩
      · rw [List.mem_singleton] at h2
        subst h2
        exact ⟨by simp, by simp⟩
    · rw [if_neg h]
      show hasCRLF (List.intercalate ['\n'] (fixedOf c)) = false
      refine hasCRLF_intercalate _ ?_
      intro l hl
      exact ⟨fixedOf_nl_not_mem c l hl, fixedOf_getLast_ne_cr c l hl⟩

/-! ## Frontmatter validator -/

/-- A parsed YAML scalar/value as seen by the validator after `yaml.parse`:
only the JavaScript-level distinctions the validator inspects are kept
(string content, zero/non-zero numbers, booleans, null, other objects). -/
inductive YVal where
  | str (s : List Char)
  | num (n : Int)
  | boolv (b : Bool)
  | nullv
  | other
deriving DecidableEq

/-- A parsed frontmatter record: key-value pairs. -/
abbrev Frontmatter := List (String × YVal)

/-- Lookup of `frontmatter[field]`: the value of a key, if present. -/
def lookupField (fm : Frontmatter) (k : String) : Option YVal :=
  (fm.find? fun p => p.1 == k).map (fun p => p.2)

/-- JavaScript truthiness of `frontmatter[field]`: an absent key is undefined
(falsy); the empty string, zero, `false` and `null` are falsy; everything
else is truthy. -/
def truthy : Option YVal → Bool
  | none => false
  | some (.str s) => decide (s ≠ [])
  | some (.num n) => decide (n ≠ 0)
  | some (.boolv b) => b
  | some .nullv => false
  | some .other => true

/-- JavaScript `s.trim()`: drop leading and trailing whitespace. -/
def trimJS (s : List Char) : List Char := trimRight (s.dropWhile isJSWs)

/-- The JavaScript check that the value is a string whose trimmed content is
nonempty. -/
def goodStrField : Option YVal → Bool
  | some (.str s) => decide (trimJS s ≠ [])
  | _ => false

/-- Outcome of the frontmatter validator for one file. -/
inductive FMResult where
  | missingStart
  | missingEnd
  | parseError
  | missingFields (fs : List String)
  | invalidName
  | invalidDescription
  | valid
deriving DecidableEq

/-- The post-parse field validation of `validate-frontmatter.js`: first the
`required.filter(field => !frontmatter[field])` missing-fields check, then
the string-type-and-nonblank checks for `name` and `description`. -/
def fieldCheck (fm : Frontmatter) : FMResult :=
  let missing := ["name", "description"].filter fun f => ! truthy (lookupField fm f)
  if missing ≠ [] then .missingFields missing
  else if ! goodStrField (lookupField fm "name") then .invalidName
  else if ! goodStrField (lookupField fm "description") then .invalidDescription
  else .valid

/-- JavaScript `content.indexOf(pat, i)` as a scan: the first index at or after `i` where
`pat` is a prefix of the remaining characters, or `none`.  The second argument
is `content` with the first `i` characters already dropped. -/
def findSubAux (pat : List Char) : List Char → Nat → Option Nat
  | [], i => if pat.isPrefixOf [] then some i else none
  | c :: rest, i =>
    if pat.isPrefixOf (c :: rest) then some i else findSubAux pat rest (i + 1)

def closeDelim : List Char := ['\n', '-', '-', '-', '\n']

def openDelim : List Char := ['-', '-', '-']

/-- One file of `validate-frontmatter.js`, parameterized by the external YAML
library (`yaml.parse` is not part of this repository): `parse` returns the
parsed record or `none` on a parse error.  Start delimiter, end delimiter
(the `content.indexOf` search from index 4), parse, then field checks, each failing
state terminal. -/
def validateFile (parse : List Char → Option Frontmatter) (content : List Char) : FMResult :=
  if ! openDelim.isPrefixOf content then .missingStart
  else
    match findSubAux closeDelim (content.drop 4) 4 with
    | none => .missingEnd
    | some endDelimiter =>
      match parse ((content.drop 4).take (endDelimiter - 4)) with
      | none => .parseError
      | some fm => fieldCheck fm

theorem findSubAux_eq_none (pat : List Char) (hpat : pat ≠ []) :
    ∀ (s : List Char) (i : Nat), (∀ j, pat.isPrefixOf (List.drop j s) = false) →
      findSubAux pat s i = none
  | [], i, h => by
    have h0 : pat.isPrefixOf ([] : List Char) = false := by
      cases hp : pat.isPrefixOf ([] : List Char) with
      | false => rfl
      | true =>
        rw [List.isPrefixOf_iff_prefix] at hp
        exact absurd (List.prefix_nil.mp hp) hpat
    rw [findSubAux, if_neg (by simp [h0])]
  | c :: rest, i, h => by
    have h0 : pat.isPrefixOf (c :: rest) = false := by
      have hh := h 0
      simpa using hh
    rw [findSubAux, if_neg (by simp [h0])]
    exact findSubAux_eq_none pat hpat rest (i + 1) fun j => by
      have hh := h (j + 1)
      simpa using hh

/-- C7: a file that starts with the opening delimiter but contains no closing
delimiter anywhere is reported with exactly the missing-end-delimiter
violation, which is distinct from every missing-field and invalid-field
violation — regardless of how the YAML library would behave. -/
theorem validateFile_missing_end (parse : List Char → Option Frontmatter)
    (content : List Char) (hstart : openDelim.isPrefixOf content = true)
    (hnone : ∀ j, j < content.length → closeDelim.isPrefixOf (content.drop j) = false) :
    validateFile parse content = .missingEnd ∧
      (∀ fs, FMResult.missingEnd ≠ .missingFields fs) ∧
      FMResult.missingEnd ≠ .invalidName ∧ FMResult.missingEnd ≠ .invalidDescription := by
  have hall : ∀ j, closeDelim.isPrefixOf (content.drop j) = false := by
    intro j
    by_cases hj : j < content.length
    · exact hnone j hj
    · have hd : content.drop j = [] := List.drop_eq_nil_of_le (le_of_not_lt hj)
      rw [hd]
      decide
  refine ⟨?_, fun fs h => FMResult.noConfusion h, fun h => FMResult.noConfusion h,
    fun h => FMResult.noConfusion h⟩
  rw [validateFile, if_neg (by simp [hstart])]
  rw [findSubAux_eq_none closeDelim (by decide) (content.drop 4) 4
    (fun j => by simpa [List.drop_drop, Nat.add_comm] using hall (j + 4))]

/-- Witness for C7: `"---\nname" ` has no closing delimiter. -/
theorem validateFile_missing_end_witness :
    validateFile (fun _ => none) ['-', '-', '-', '\n', 'n', 'a', 'm', 'e'] =
        FMResult.missingEnd ∧
      (∀ fs, FMResult.missingEnd ≠ .missingFields fs) ∧
      FMResult.missingEnd ≠ .invalidName ∧ FMResult.missingEnd ≠ .invalidDescription :=
  validateFile_missing_end (fun _ => none) ['-', '-', '-', '\n', 'n', 'a', 'm', 'e']
    (by decide) (by decide)

/-- C8 counterexample: a present-but-empty-string `name` is JavaScript-falsy,
so `validate-frontmatter.js` reports it as a *missing* required field, not as
the invalid-field-type violation the claim requires. -/
theorem fieldCheck_empty_name_reported_missing :
    fieldCheck [("name", YVal.str []), ("description", YVal.str ['o', 'k'])] =
        FMResult.missingFields ["name"] ∧
      FMResult.missingFields ["name"] ≠ FMResult.invalidName := by decide

theorem goodStrField_truthy (v : Option YVal) (h : goodStrField v = true) :
    truthy v = true := by
  cases v with
  | none => simp [goodStrField] at h
  | some y =>
    cases y with
    | str s =>
      simp only [goodStrField, decide_eq_true_eq] at h
      simp only [truthy, decide_eq_true_eq]
      intro hs
      rw [hs] at h
      exact h rfl
    | num n => simp [goodStrField] at h
    | boolv b => simp [goodStrField] at h
    | nullv => simp [goodStrField] at h
    | other => simp [goodStrField] at h

/-- C8 (amended): a required key — name or description — that is present with
a truthy value that is not a string or is a whitespace-only string is
reported with the invalid-field-type violation for that key; for description
this surfaces when name passes its own checks, since the name check runs
first.  A key that is absent or has a falsy value (for example the empty
string) is instead reported in the distinct missing-required-fields
violation. -/
theorem fieldCheck_invalid_vs_missing :
    (∀ (fm : Frontmatter) (v : YVal), lookupField fm "name" = some v →
      truthy (some v) = true → goodStrField (some v) = false →
      truthy (lookupField fm "description") = true →
      fieldCheck fm = .invalidName) ∧
    (∀ (fm : Frontmatter) (v : YVal), lookupField fm "description" = some v →
      truthy (some v) = true → goodStrField (some v) = false →
      goodStrField (lookupField fm "name") = true →
      fieldCheck fm = .invalidDescription) ∧
    (∀ fm : Frontmatter, truthy (lookupField fm "name") = false →
      truthy (lookupField fm "description") = true →
      fieldCheck fm = .missingFields ["name"]) ∧
    (∀ fm : Frontmatter, truthy (lookupField fm "name") = true →
      truthy (lookupField fm "description") = false →
      fieldCheck fm = .missingFields ["description"]) ∧
    FMResult.invalidName ≠ FMResult.missingFields ["name"] ∧
    FMResult.invalidDescription ≠ FMResult.missingFields ["description"] ∧
    FMResult.invalidName ≠ FMResult.invalidDescription := by
  refine ⟨?_, ?_, ?_, ?_, fun h => FMResult.noConfusion h, fun h => FMResult.noConfusion h,
    fun h => FMResult.noConfusion h⟩
  · intro fm v hv htr hbad hdesc
    have h1 : truthy (lookupField fm "name") = true := by rw [hv]; exact htr
    have h2 : goodStrField (lookupField fm "name") = false := by rw [hv]; exact hbad
    simp [fieldCheck, List.filter_cons, h1, h2, hdesc]
  · intro fm v hv htr hbad hname
    have h1 : truthy (lookupField fm "name") = true := goodStrField_truthy _ hname
    have h2 : truthy (lookupField fm "description") = true := by rw [hv]; exact htr
    have h3 : goodStrField (lookupField fm "description") = false := by rw [hv]; exact hbad
    simp [fieldCheck, List.filter_cons, h1, h2, h3, hname]
  · intro fm h1 hdesc
    simp [fieldCheck, List.filter_cons, h1, hdesc]
  · intro fm h1 hdesc
    simp [fieldCheck, List.filter_cons, h1, hdesc]

/-- Witness for C8: a numeric name is invalid-name; a whitespace-only
description alongside a valid name is invalid-description; an absent name or
an absent description lands in the missing-fields violation. -/
theorem fieldCheck_invalid_vs_missing_witness :
    fieldCheck [("name", YVal.num 5), ("description", YVal.str ['o', 'k'])] =
        FMResult.invalidName ∧
      fieldCheck [("name", YVal.str ['o', 'k']), ("description", YVal.str [' ', ' '])] =
        FMResult.invalidDescription ∧
      fieldCheck [("description", YVal.str ['o', 'k'])] =
        FMResult.missingFields ["name"] ∧
      fieldCheck [("name", YVal.str ['o', 'k'])] =
        FMResult.missingFields ["description"] :=
  ⟨fieldCheck_invalid_vs_missing.1 [("name", YVal.num 5), ("description", YVal.str ['o', 'k'])]
      (YVal.num 5) (by decide) (by decide) (by decide) (by decide),
    fieldCheck_invalid_vs_missing.2.1
      [("name", YVal.str ['o', 'k']), ("description", YVal.str [' ', ' '])]
      (YVal.str [' ', ' ']) (by decide) (by decide) (by decide) (by decide),
    fieldCheck_invalid_vs_missing.2.2.1 [("description", YVal.str ['o', 'k'])]
      (by decide) (by decide),
    fieldCheck_invalid_vs_missing.2.2.2.1 [("name", YVal.str ['o', 'k'])]
      (by decide) (by decide)⟩

/-! ## Sensitive-file detector -/

/-- ASCII lowercasing, as applied by case-insensitive regex matching. -/
def toLowerAscii (c : Char) : Char :=
  if 'A' ≤ c ∧ c ≤ 'Z' then Char.ofNat (c.toNat + 32) else c

/-- Does some suffix of the list satisfy `p`? -/
def anySuffix (p : List Char → Bool) : List Char → Bool
  | [] => p []
  | c :: cs => p (c :: cs) || anySuffix p cs

/-- Whether `pat` occurs as a contiguous substring of `s`. -/
def containsSub (pat s : List Char) : Bool := anySuffix (fun t => pat.isPrefixOf t) s

/-- Case-insensitive substring test (the regex `/i` flag, ASCII range). -/
def icontains (pat s : List Char) : Bool := containsSub pat (s.map toLowerAscii)

/-- Regex `/^\.env(\..*)?$/`. -/
def reEnv (s : List Char) : Bool :=
  s == ".env".toList || ".env.".toList.isPrefixOf s

/-- Regex `/^\.env\.local$/`. -/
def reEnvLocal (s : List Char) : Bool := s == ".env.local".toList

/-- Regex `/^\.env\..*\.local$/`. -/
def reEnvNameLocal (s : List Char) : Bool :=
  ".env.".toList.isPrefixOf s && ".local".toList.isSuffixOf (s.drop 5)

/-- Regex `/\.key$/`. -/
def reKeyExt (s : List Char) : Bool := ".key".toList.isSuffixOf s

/-- Regex `/\.pem$/`. -/
def rePemExt (s : List Char) : Bool := ".pem".toList.isSuffixOf s

/-- A case-insensitive substring `w1[-_]w2` (the `[-_]` class is mandatory). -/
def reSepPair (w1 w2 : String) (s : List Char) : Bool :=
  icontains (w1.toList ++ '-' :: w2.toList) s || icontains (w1.toList ++ '_' :: w2.toList) s

def rePrivateKey (s : List Char) : Bool := reSepPair "private" "key" s

def reSecretKey (s : List Char) : Bool := reSepPair "secret" "key" s

def reCredentials (s : List Char) : Bool := icontains "credentials".toList s

def reOauthToken (s : List Char) : Bool := reSepPair "oauth" "token" s

def reApiKey (s : List Char) : Bool := reSepPair "api" "key" s

def reAuthToken (s : List Char) : Bool := reSepPair "auth" "token" s

/-- Regex `/\.vscode\/settings\.json$/`. -/
def reVscodeSettings (s : List Char) : Bool := ".vscode/settings.json".toList.isSuffixOf s

/-- Regex `/\.idea\/.*\.xml$/`: ends in `.xml` and contains `.idea/` before
the final four characters. -/
def reIdeaXml (s : List Char) : Bool :=
  ".xml".toList.isSuffixOf s && containsSub ".idea/".toList (s.take (s.length - 4))

/-- Regex `/\.idea\/.*\.yml$/`. -/
def reIdeaYml (s : List Char) : Bool :=
  ".yml".toList.isSuffixOf s && containsSub ".idea/".toList (s.take (s.length - 4))

/-- The `BLOCKED_PATTERNS` array, in source order. -/
def BLOCKED_PATTERNS : List (List Char → Bool) :=
  [reEnv, reEnvLocal, reEnvNameLocal, reKeyExt, rePemExt, rePrivateKey, reSecretKey,
   reCredentials, reOauthToken, reApiKey, reAuthToken, reVscodeSettings, reIdeaXml, reIdeaYml]

/-- `BLOCKED_PATTERNS.some(pattern => pattern.test(fileName) ||
pattern.test(relativePath))`. -/
def isBlocked (fileName relativePath : List Char) : Bool :=
  BLOCKED_PATTERNS.any fun pattern => pattern fileName || pattern relativePath

/-- `\s*[:=]` at the head of the remaining characters. -/
def matchAssign : List Char → Bool
  | [] => false
  | c :: cs => if c == ':' || c == '=' then true else if isJSWs c then matchAssign cs else false

/-- Consume one optional `[_-]` character. -/
def optDash : List Char → List Char
  | [] => []
  | c :: cs => if c == '_' || c == '-' then cs else c :: cs

/-- `w1[_-]?w2\s*[:=]` at the head of the remaining characters. -/
def matchKeyAssignAt (w1 w2 : List Char) (s : List Char) : Bool :=
  w1.isPrefixOf s &&
    (let rest := optDash (s.drop w1.length)
     w2.isPrefixOf rest && matchAssign (rest.drop w2.length))

/-- `w\s*[:=]` at the head of the remaining characters. -/
def matchWordAssignAt (w : List Char) (s : List Char) : Bool :=
  w.isPrefixOf s && matchAssign (s.drop w.length)

/-- One of the five suspicious-content patterns starting here. -/
def suspiciousAt (s : List Char) : Bool :=
  matchKeyAssignAt "api".toList "key".toList s ||
  matchWordAssignAt "secret".toList s ||
  matchWordAssignAt "password".toList s ||
  matchWordAssignAt "token".toList s ||
  matchKeyAssignAt "private".toList "key".toList s

/-- The secondary content scan for credential-looking assignments. -/
def hasSuspicious (content : List Char) : Bool :=
  anySuffix suspiciousAt (content.map toLowerAscii)

/-- The per-file callback of the sensitive-file check: the number of errors
recorded for this file (the blocked counter is incremented once when any
pattern matches), the "appears to contain credentials" flag, and the file
content, which is only ever read, never written. -/
def checkSensitiveFile (fileName relativePath content : List Char) :
    Nat × Bool × List Char :=
  if isBlocked fileName relativePath then (1, hasSuspicious content, content)
  else (0, false, content)

/-- C9: a file whose base name matches `/^\.env(\..*)?$/` yields exactly one
recorded error — even when several blocked patterns match — and its content
is returned unmodified. -/
theorem env_file_one_error (fileName relativePath content : List Char)
    (h : reEnv fileName = true) :
    (checkSensitiveFile fileName relativePath content).1 = 1 ∧
      (checkSensitiveFile fileName relativePath content).2.2 = content := by
  have hb : isBlocked fileName relativePath = true := by
    rw [isBlocked, BLOCKED_PATTERNS]
    simp [h]
  rw [checkSensitiveFile, if_pos hb]
  exact ⟨rfl, rfl⟩

/-- Witness for C9: `.env.local` matches several patterns yet is counted
once, and the content survives untouched. -/
theorem env_file_one_error_witness :
    reEnv ".env.local".toList = true ∧
      (checkSensitiveFile ".env.local".toList ".env.local".toList ['x']).1 = 1 ∧
      (checkSensitiveFile ".env.local".toList ".env.local".toList ['x']).2.2 = ['x'] :=
  ⟨by decide, env_file_one_error ".env.local".toList ".env.local".toList ['x'] (by decide)⟩

end Hygiene
